import Mathlib

/-!
Verification development for the Booking.com scraper core of the
`social-media-agent-for-hospitality` repository.

Strings are modelled as lists of Unicode code points (`List Nat`).
`pystr` converts a Lean string literal into this representation so that
concrete scenarios can be evaluated.

The embedding covers, faithfully to `booking_playwright_scraper.py` and
`main_agent/tools/tools.py`:
  * `canonicalize_booking_url` (including the relevant behaviour of
    Python's `urllib.parse.urlparse` / `urlunparse`);
  * `update_url_language` (including Python's replace-all `str.replace`);
  * the gallery-counter bound discovery of `scrape_booking_hotel_async`,
    including the literal regular expression `r"/\\s*(\\d+)"` from the
    source (a raw string, hence matching a literal backslash) and
    Python's `int()` parsing;
  * the image harvesting loop (step 4 of `scrape_booking_hotel_async`),
    with the page's behaviour at each iteration abstracted as an
    environment `Nat → IterOutcome`;
  * the JSON documents produced by `main()` and by the wrapper tool
    `get_booking_com_data`.

Python's `str.lower` is modelled on the ASCII range (the only range the
concrete scenarios exercise).
-/

/-- Code points of a string literal. -/
def pystr (s : String) : List Nat := s.data.map Char.toNat

/-- One character of Python `str.lower`, ASCII range. -/
def lowerC (c : Nat) : Nat := if 65 ≤ c ∧ c ≤ 90 then c + 32 else c

/-- Python `str.lower` (ASCII range). -/
def lowerS (s : List Nat) : List Nat := s.map lowerC

/-- Python `str.isspace` characters: the set stripped by `str.strip()`. -/
def wsb (c : Nat) : Bool :=
  (9 ≤ c && c ≤ 13) || (28 ≤ c && c ≤ 32) || c == 133 || c == 160 || c == 5760 ||
  (8192 ≤ c && c ≤ 8202) || c == 8232 || c == 8233 || c == 8239 || c == 8287 || c == 12288

/-- Python `str.strip()` with no argument. -/
def pyStrip (s : List Nat) : List Nat :=
  ((s.dropWhile wsb).reverse.dropWhile wsb).reverse

/-- WHATWG "C0 control or space" predicate (`urlsplit` lstrips these). -/
def c0sp (c : Nat) : Bool := c ≤ 32

/-- The bytes `urlsplit` removes anywhere in the URL: tab, LF, CR. -/
def tabCrLf (c : Nat) : Bool := c == 9 || c == 10 || c == 13

/-- `urlsplit`'s URL sanitisation: lstrip C0-or-space, then drop tab/CR/LF. -/
def cleanUrl (s : List Nat) : List Nat :=
  (s.dropWhile c0sp).filter (fun c => !tabCrLf c)

/-- ASCII letter. -/
def alphaA (c : Nat) : Bool := (65 ≤ c && c ≤ 90) || (97 ≤ c && c ≤ 122)

/-- `urllib.parse` scheme characters (letters, digits, `+`, `-`, `.`). -/
def schCh (c : Nat) : Bool :=
  alphaA c || (48 ≤ c && c ≤ 57) || c == 43 || c == 45 || c == 46

/-- Scan for the `scheme:` part: accumulate scheme chars until the first `:`
(code 58); fail on any non-scheme char before it (then `urlsplit` leaves the
URL schemeless). -/
def schemeGo : List Nat → List Nat → Option (List Nat × List Nat)
  | _, [] => none
  | acc, c :: t =>
    if c = 58 then some (acc.reverse, t)
    else if schCh c then schemeGo (c :: acc) t
    else none

/-- Split `scheme:` off a sanitised URL, as `urlsplit` does: the part before
the first `:` must start with an ASCII letter and consist of scheme chars;
the scheme is lower-cased.  Returns `(scheme, rest)`, scheme `[]` if none. -/
def schemeSplit (u : List Nat) : List Nat × List Nat :=
  match u with
  | [] => ([], [])
  | c :: t =>
    if alphaA c then
      match schemeGo [c] t with
      | some (sch, rest) => (lowerS sch, rest)
      | none => ([], u)
    else ([], u)

/-- Not one of `urlsplit`'s netloc delimiters `/`, `?`, `#`. -/
def notDelim (c : Nat) : Bool := !(c == 47 || c == 63 || c == 35)

/-- Netloc and path extraction of `urlsplit`, applied after the scheme is
split off: when the rest starts with `//`, the netloc runs to the first
`/`, `?` or `#` (`_splitnetloc`); the path is the remainder up to the
first `#` or `?` (query and fragment are discarded:
`canonicalize_booking_url` never reads them). -/
def netPathOf (sch rest : List Nat) : List Nat × List Nat × List Nat :=
  match rest with
  | 47 :: 47 :: r2 =>
    (sch, r2.takeWhile notDelim,
      (r2.dropWhile notDelim).takeWhile (fun c => !(c == 35 || c == 63)))
  | other => (sch, [], other.takeWhile (fun c => !(c == 35 || c == 63)))

/-- The `(scheme, netloc, path)` of `urllib.parse.urlsplit`. -/
def urlNetPath (raw : List Nat) : List Nat × List Nat × List Nat :=
  netPathOf (schemeSplit (cleanUrl raw)).1 (schemeSplit (cleanUrl raw)).2

/-- `urllib.parse.uses_params`: the schemes for which `urlparse` splits a
`;params` suffix off the last path segment. -/
def usesParamsScheme (sch : List Nat) : Bool :=
  decide (sch = [] ∨ sch = pystr "ftp" ∨ sch = pystr "hdl" ∨
    sch = pystr "prospero" ∨ sch = pystr "http" ∨ sch = pystr "imap" ∨
    sch = pystr "https" ∨ sch = pystr "shttp" ∨ sch = pystr "rtsp" ∨
    sch = pystr "rtspu" ∨ sch = pystr "sip" ∨ sch = pystr "sips" ∨
    sch = pystr "mms" ∨ sch = pystr "sftp" ∨ sch = pystr "tel")

/-- Last `/`-free segment of a path (chars after the last `/`; the whole
path if it has no `/`). -/
def lastSegment (p : List Nat) : List Nat :=
  (p.reverse.takeWhile (fun c => c ≠ 47)).reverse

/-- `urllib.parse._splitparams`, path component only: cut the path at the
first `;` (code 59) at or after the last `/`; called only when `;` occurs. -/
def splitparamsPath (p : List Nat) : List Nat :=
  if (47 : Nat) ∈ p then
    if (59 : Nat) ∈ lastSegment p then
      p.take (p.length - (lastSegment p).length) ++
        (lastSegment p).takeWhile (fun c => c ≠ 59)
    else p
  else p.takeWhile (fun c => c ≠ 59)

/-- The `path` attribute of `urllib.parse.urlparse`: `urlsplit`'s path with
`;params` split off when the scheme uses params and a `;` is present. -/
def urlparsePath (sch p : List Nat) : List Nat :=
  if usesParamsScheme sch = true ∧ (59 : Nat) ∈ p then splitparamsPath p else p

/-- Last element of a list of code points (0 for the empty list). -/
def lastD (l : List Nat) : Nat := l.reverse.headD 0

/-- No `;` (code 59) in the final `/`-free segment: the condition under
which `urlparse`'s params split leaves a path unchanged. -/
def semiFreeLastSeg (p : List Nat) : Bool :=
  !(decide ((59 : Nat) ∈ p.reverse.takeWhile (fun c => c ≠ 47)))

/-- `s.rstrip("/")`: drop all trailing `/` (code 47). -/
def rstripSlash (s : List Nat) : List Nat :=
  (s.reverse.dropWhile (fun c => c = 47)).reverse

/-- Bool test: does `s` start with `pat`? (Python `str.startswith`.) -/
def leadsWith : List Nat → List Nat → Bool
  | [], _ => true
  | _ :: _, [] => false
  | a :: pa, b :: sb => if a = b then leadsWith pa sb else false

/-- Bool test: does `s` end with `pat`? (Python `str.endswith`.) -/
def endsWith (pat s : List Nat) : Bool := leadsWith pat.reverse s.reverse

/-- Bool test: does `pat` occur in `s`? (Python `pat in s`.) -/
def containsSeq (pat : List Nat) : List Nat → Bool
  | [] => leadsWith pat []
  | c :: t => leadsWith pat (c :: t) || containsSeq pat t

/-- `"booking.com"`. -/
def bcom : List Nat := pystr "booking.com"

/-- `"www.booking.com"`. -/
def wbcom : List Nat := pystr "www.booking.com"

/-- `"https://"`. -/
def httpsPre : List Nat := pystr "https://"

/-- `host = "www.booking.com" if host.endswith("booking.com") else host`
(source lines 26-27). -/
def hostNorm (h : List Nat) : List Nat :=
  if endsWith bcom h = true then wbcom else h

/-- `canonicalize_booking_url` up to the final `urlunparse`: the normalised
`(host, path)` pair, `none` when the input is empty or has no netloc. -/
def canonParts (raw : List Nat) : Option (List Nat × List Nat) :=
  if raw = [] then none
  else
    let t := urlNetPath (pyStrip raw)
    if t.2.1 = [] then none
    else some (hostNorm (lowerS t.2.1), lowerS (rstripSlash (urlparsePath t.1 t.2.2)))

/-- `urlunparse(("https", host, path, "", "", ""))`: `https://` ++ host ++
path, with a `/` inserted before a nonempty path that lacks one. -/
def urlunparseHNP (host path : List Nat) : List Nat :=
  httpsPre ++ host ++
    (match path with
     | [] => []
     | c :: t => if c = 47 then c :: t else 47 :: c :: t)

/-- `canonicalize_booking_url` (source lines 18-29). -/
def canonicalize_booking_url (raw : List Nat) : Option (List Nat) :=
  (canonParts raw).map (fun hp => urlunparseHNP hp.1 hp.2)

/-- `".en-gb.html"`. -/
def engb : List Nat := pystr ".en-gb.html"

/-- `".el-gr.html"`. -/
def elgr : List Nat := pystr ".el-gr.html"

/-- Fuelled scan of Python `str.replace` for a nonempty pattern:
left-to-right, non-overlapping, replacing every occurrence.  The fuel is
only there to make the recursion structural; with fuel at least the length
of the string it never runs out (each step consumes at least one char and
one fuel). -/
def repGo (pat rep : List Nat) : Nat → List Nat → List Nat
  | _, [] => []
  | 0, s => s
  | fuel+1, c :: t =>
    if leadsWith pat (c :: t) = true then
      rep ++ repGo pat rep fuel (t.drop (pat.length - 1))
    else c :: repGo pat rep fuel t

/-- Scan with enough fuel. -/
def replaceAllGo (pat rep s : List Nat) : List Nat := repGo pat rep s.length s

/-- Python `s.replace(pat, rep)` (modelled for nonempty `pat`; both
patterns in the source, the locale suffixes, are nonempty). -/
def pyReplace (s pat rep : List Nat) : List Nat :=
  if pat.isEmpty then s else replaceAllGo pat rep s

/-- `update_url_language` (source lines 32-39). -/
def update_url_language (url lang : List Nat) : List Nat :=
  let language := lowerS (if lang = [] then pystr "en" else lang)
  if containsSeq engb url = true ∧ language = pystr "el" then pyReplace url engb elgr
  else if containsSeq elgr url = true ∧ language = pystr "en" then pyReplace url elgr engb
  else url

/-- Attempt the literal regex `/\\s*(\\d+)` (source line 72: a *raw* Python
string, so the pattern is slash, backslash, `s*`, backslash, `d+`) at the
head of `l`; on success return the capture group `\\d+` (a backslash
followed by the letters `d`).  Greedy matching needs no backtracking here
because `s` (115) differs from `\\` (92). -/
def patMatchAt (l : List Nat) : Option (List Nat) :=
  match l with
  | 47 :: 92 :: rest =>
    match rest.dropWhile (fun c => c = 115) with
    | 92 :: r3 =>
      match r3.takeWhile (fun c => c = 100) with
      | [] => none
      | ds => some (92 :: ds)
    | _ => none
  | _ => none

/-- `re.search` for the pattern above: first position (left to right) where
it matches; returns group 1. -/
def reSearchPat : List Nat → Option (List Nat)
  | [] => none
  | c :: t =>
    match patMatchAt (c :: t) with
    | some g => some g
    | none => reSearchPat t

/-- Nonempty all-digit string to its value. -/
def digitsVal (l : List Nat) : Option Nat :=
  if l ≠ [] ∧ l.all (fun c => 48 ≤ c && c ≤ 57) then
    some (l.foldl (fun acc c => acc * 10 + (c - 48)) 0)
  else none

/-- Python `int(s)`: optional surrounding whitespace, optional sign, then
decimal digits; `none` models `ValueError`.  (Underscore separators are not
modelled; no input here contains them.) -/
def pyIntParse (s : List Nat) : Option Int :=
  match pyStrip s with
  | [] => none
  | c :: ds =>
    if c = 43 then (digitsVal ds).map (fun n => (n : Int))
    else if c = 45 then (digitsVal ds).map (fun n => -(n : Int))
    else (digitsVal (c :: ds)).map (fun n => (n : Int))

/-- Bound discovery (source lines 67-77): `counterText` is the gallery
counter read, `none` when `inner_text` raised.  `total_images =
int(match.group(1)) if match else 50`, with any exception (including
`ValueError` from `int`) caught and replaced by the fallback 50. -/
def totalImages (counterText : Option (List Nat)) : Nat :=
  match counterText with
  | none => 50
  | some t =>
    match reSearchPat t with
    | none => 50
    | some g =>
      match pyIntParse g with
      | some n => n.toNat
      | none => 50

/-- What the page yields at one iteration of the harvest loop:
`ok src` — the element read and the advance click both succeed (`src` is
`none` when no element is found or the attribute is null); `okThenRaise
src` — the read succeeds but the advance click or wait raises; `raise` —
the extraction itself raises. -/
inductive IterOutcome where
  | ok (src : Option (List Nat))
  | okThenRaise (src : Option (List Nat))
  | raise
deriving DecidableEq

/-- `if src and src not in seen: seen.add(src); image_urls.append(src)`
(source lines 89-91); an empty string is falsy. -/
def addSrc (seen urls : List (List Nat)) (o : Option (List Nat)) :
    List (List Nat) × List (List Nat) :=
  match o with
  | none => (seen, urls)
  | some src =>
    if src ≠ [] ∧ src ∉ seen then (src :: seen, urls ++ [src]) else (seen, urls)

/-- The harvest loop (source lines 82-97): `for i in range(total_images)`
inside a single `try`; an exception anywhere in an iteration is caught
*outside* the loop, ending the harvest with the URLs collected so far. -/
def harvestAux (env : Nat → IterOutcome) :
    Nat → Nat → List (List Nat) → List (List Nat) → List (List Nat)
  | _, 0, _, urls => urls
  | i, fuel+1, seen, urls =>
    match env i with
    | IterOutcome.raise => urls
    | IterOutcome.okThenRaise o => (addSrc seen urls o).2
    | IterOutcome.ok o =>
      harvestAux env (i+1) fuel (addSrc seen urls o).1 (addSrc seen urls o).2

/-- The harvest loop started with empty `seen` and `image_urls`. -/
def harvestRun (env : Nat → IterOutcome) (total : Nat) : List (List Nat) :=
  harvestAux env 0 total [] []

/-- The nonempty sources the loop actually reads, in read order. -/
def readOf : Option (List Nat) → List (List Nat)
  | none => []
  | some s => if s = [] then [] else [s]

/-- The sequence of nonempty source reads performed by iterations
`i, i+1, …` with `fuel` iterations left, ending at the first raise. -/
def readsFrom (env : Nat → IterOutcome) : Nat → Nat → List (List Nat)
  | _, 0 => []
  | i, fuel+1 =>
    match env i with
    | IterOutcome.raise => []
    | IterOutcome.okThenRaise o => readOf o
    | IterOutcome.ok o => readOf o ++ readsFrom env (i+1) fuel

/-- Specification-side dedup: keep each string's first occurrence, in
order of first sight. -/
def firstOccurrences : List (List Nat) → List (List Nat)
  | [] => []
  | s :: rest => s :: firstOccurrences (rest.filter (fun t => t ≠ s))
termination_by l => l.length
decreasing_by
  simp only [List.length_cons]
  exact Nat.lt_succ_of_le (List.length_filter_le _ _)

/-- Keys of the JSON documents the scraper and the wrapper tool emit. -/
inductive JKey where
  | status | message | hotelName | description | imageUrls
  | bookingUrl | bookingUrlCanon
deriving DecidableEq

/-- JSON values occurring in those documents. -/
inductive JVal where
  | jstr (s : List Nat)
  | jlist (l : List (List Nat))
  | jnull
deriving DecidableEq

/-- A JSON object as an ordered association list (Python dicts preserve
insertion order). -/
abbrev Doc := List (JKey × JVal)

/-- Key lookup. -/
def dlookup (k : JKey) : Doc → Option JVal
  | [] => none
  | (k2, v) :: t => if k2 = k then some v else dlookup k t

/-- Key presence. -/
def hasKey (d : Doc) (k : JKey) : Bool := (dlookup k d).isSome

/-- An optional string as a JSON value (`None` → `null`). -/
def optVal : Option (List Nat) → JVal
  | some s => JVal.jstr s
  | none => JVal.jnull

/-- `"No description found."`. -/
def noDescSentinel : List Nat := pystr "No description found."

/-- The document printed when the URL argument is missing (source lines
129-141). -/
def missingArgDoc : Doc :=
  [(JKey.status, JVal.jstr (pystr "error")),
   (JKey.message, JVal.jstr (pystr "Missing Booking.com URL argument.")),
   (JKey.hotelName, JVal.jnull),
   (JKey.description, JVal.jstr noDescSentinel),
   (JKey.imageUrls, JVal.jlist []),
   (JKey.bookingUrl, JVal.jnull),
   (JKey.bookingUrlCanon, JVal.jnull)]

/-- The document printed when `scrape_booking_hotel_async` raises (source
lines 150-162). -/
def scrapeErrorDoc (url msg : List Nat) : Doc :=
  [(JKey.status, JVal.jstr (pystr "error")),
   (JKey.message, JVal.jstr msg),
   (JKey.hotelName, JVal.jnull),
   (JKey.description, JVal.jstr noDescSentinel),
   (JKey.imageUrls, JVal.jlist []),
   (JKey.bookingUrl, JVal.jstr url),
   (JKey.bookingUrlCanon, optVal (canonicalize_booking_url url))]

/-- The dict returned by `scrape_booking_hotel_async` (source lines
117-124). -/
def successDoc (hotelName desc : List Nat) (urls : List (List Nat))
    (finalUrl : List Nat) : Doc :=
  [(JKey.status, JVal.jstr (pystr "success")),
   (JKey.hotelName, JVal.jstr hotelName),
   (JKey.description, JVal.jstr desc),
   (JKey.imageUrls, JVal.jlist urls),
   (JKey.bookingUrl, JVal.jstr finalUrl),
   (JKey.bookingUrlCanon, optVal (canonicalize_booking_url finalUrl))]

/-- How a run of `scrape_booking_hotel_async` ends: normally, with the
scraped fields, or with an exception (e.g. `page.goto` failing). -/
inductive ScrapeOutcome where
  | ok (hotelName desc : List Nat) (imageUrls : List (List Nat)) (finalUrl : List Nat)
  | exn (msg : List Nat)

/-- `main()` (source lines 127-165): the document written to stdout and the
process exit code, given `sys.argv` and the scrape outcome. -/
def mainRun (argv : List (List Nat)) (run : ScrapeOutcome) : Doc × Nat :=
  if argv.length < 2 then (missingArgDoc, 1)
  else
    match run with
    | ScrapeOutcome.exn msg =>
      (scrapeErrorDoc (argv.getD 1 []) (pystr "Playwright error while scraping: " ++ msg), 1)
    | ScrapeOutcome.ok n d us fu => (successDoc n d us fu, 0)

/-- The dict `get_booking_com_data` returns on its own failure paths
(script missing, `CalledProcessError`, `TimeoutExpired`,
`JSONDecodeError`) — `tools.py` lines 40-46, 58-64, 66-73, 82-90: the
same five keys on each path. -/
def toolFallbackDoc (msg url : List Nat) : Doc :=
  [(JKey.status, JVal.jstr (pystr "error")),
   (JKey.message, JVal.jstr msg),
   (JKey.description, JVal.jstr noDescSentinel),
   (JKey.imageUrls, JVal.jlist []),
   (JKey.bookingUrl, JVal.jstr url)]

/-- The "Ensure required keys exist" block of `get_booking_com_data`
(`tools.py` lines 93-99): it fills only `description`, `image_urls` and
`booking_url`. -/
def ensureRequiredKeys (d : Doc) (url : List Nat) : Doc :=
  let d1 := if hasKey d JKey.description then d
            else d ++ [(JKey.description, JVal.jstr noDescSentinel)]
  let d2 := if hasKey d1 JKey.imageUrls then d1
            else d1 ++ [(JKey.imageUrls, JVal.jlist [])]
  if hasKey d2 JKey.bookingUrl then d2
  else d2 ++ [(JKey.bookingUrl, JVal.jstr url)]

/-- Shape check for the six required result keys (claim C8): `status` a
string, `hotel_name` a string or the `None` sentinel, `description` a
string, `image_urls` a list, `booking_url` and `booking_url_canon` a
string or `None`. -/
def isStrVal : Option JVal → Bool
  | some (JVal.jstr _) => true
  | _ => false

/-- String-or-null shape. -/
def isStrOrNull : Option JVal → Bool
  | some (JVal.jstr _) => true
  | some JVal.jnull => true
  | _ => false

/-- List shape. -/
def isListVal : Option JVal → Bool
  | some (JVal.jlist _) => true
  | _ => false

/-- All six required keys present with type-correct values. -/
def requiredKeysOk (d : Doc) : Bool :=
  isStrVal (dlookup JKey.status d) &&
  isStrOrNull (dlookup JKey.hotelName d) &&
  isStrVal (dlookup JKey.description d) &&
  isListVal (dlookup JKey.imageUrls d) &&
  isStrOrNull (dlookup JKey.bookingUrl d) &&
  isStrOrNull (dlookup JKey.bookingUrlCanon d)

/-- Environment for claim C1's scenario: iteration 0 reads `"a"`,
iteration 1 raises during extraction, every later iteration would read
`"b"`. -/
def envC1 : Nat → IterOutcome :=
  fun i => if i = 0 then IterOutcome.ok (some (pystr "a"))
           else if i = 1 then IterOutcome.raise
           else IterOutcome.ok (some (pystr "b"))

/-- `pat` has no nontrivial border: no proper nonempty suffix of `pat` is
also a prefix of `pat`.  (Both locale suffixes have this property; it is
what makes occurrences of them unable to straddle a replacement.) -/
def noBorder (pat : List Nat) : Prop :=
  ∀ k, k < pat.length → 0 < k → pat.drop k ≠ pat.take (pat.length - k)

instance (pat : List Nat) : Decidable (noBorder pat) := by
  unfold noBorder
  infer_instance

/-! ## Generic list helpers -/

theorem allFalse_dropWhile (P : Nat → Bool) (l : List Nat)
    (h : ∀ c ∈ l, P c = false) : l.dropWhile P = l := by
  cases l with
  | nil => rfl
  | cons c t => simp [List.dropWhile_cons, h c (List.mem_cons_self c t)]

theorem stripId (l : List Nat) (h : ∀ c ∈ l, wsb c = false) : pyStrip l = l := by
  unfold pyStrip
  rw [allFalse_dropWhile _ _ h, allFalse_dropWhile, List.reverse_reverse]
  intro c hc
  exact h c (by simpa using hc)

theorem mem_takeWhile_orig {f : Nat → Bool} : ∀ (l : List Nat) (c : Nat),
    c ∈ l.takeWhile f → c ∈ l := by
  intro l
  induction l with
  | nil => intro c h; simp at h
  | cons a t ih =>
    intro c h
    rw [List.takeWhile_cons] at h
    by_cases hf : f a = true
    · rw [if_pos hf] at h
      rcases List.mem_cons.mp h with rfl | h
      · exact List.mem_cons_self _ _
      · exact List.mem_cons_of_mem _ (ih c h)
    · rw [if_neg hf] at h
      simp at h

theorem mem_dropWhile_orig {f : Nat → Bool} : ∀ (l : List Nat) (c : Nat),
    c ∈ l.dropWhile f → c ∈ l := by
  intro l
  induction l with
  | nil => intro c h; simp at h
  | cons a t ih =>
    intro c h
    rw [List.dropWhile_cons] at h
    by_cases hf : f a = true
    · rw [if_pos hf] at h
      exact List.mem_cons_of_mem _ (ih c h)
    · rw [if_neg hf] at h
      exact h

theorem takeWhile_all_eq {f : Nat → Bool} : ∀ (l : List Nat),
    (∀ c ∈ l, f c = true) → l.takeWhile f = l := by
  intro l
  induction l with
  | nil => intro _; rfl
  | cons a t ih =>
    intro h
    rw [List.takeWhile_cons, if_pos (h a (List.mem_cons_self _ _))]
    rw [ih (fun c hc => h c (List.mem_cons_of_mem _ hc))]

theorem takeWhile_append_all {f : Nat → Bool} : ∀ (h p : List Nat),
    (∀ c ∈ h, f c = true) → (h ++ p).takeWhile f = h ++ p.takeWhile f := by
  intro h
  induction h with
  | nil => intro p _; simp
  | cons a t ih =>
    intro p hall
    rw [List.cons_append, List.takeWhile_cons,
      if_pos (hall a (List.mem_cons_self _ _)), List.cons_append]
    rw [ih p (fun c hc => hall c (List.mem_cons_of_mem _ hc))]

theorem dropWhile_append_all {f : Nat → Bool} : ∀ (h p : List Nat),
    (∀ c ∈ h, f c = true) → (h ++ p).dropWhile f = p.dropWhile f := by
  intro h
  induction h with
  | nil => intro p _; simp
  | cons a t ih =>
    intro p hall
    rw [List.cons_append, List.dropWhile_cons,
      if_pos (hall a (List.mem_cons_self _ _))]
    exact ih p (fun c hc => hall c (List.mem_cons_of_mem _ hc))

theorem dropWhile_shape {f : Nat → Bool} : ∀ (l : List Nat),
    l.dropWhile f = [] ∨ ∃ c t, l.dropWhile f = c :: t ∧ f c = false := by
  intro l
  induction l with
  | nil => left; rfl
  | cons a t ih =>
    rw [List.dropWhile_cons]
    by_cases hf : f a = true
    · rw [if_pos hf]; exact ih
    · rw [if_neg hf]
      exact Or.inr ⟨a, t, rfl, Bool.eq_false_iff.mpr hf⟩

theorem takeWhile_length_lt {f : Nat → Bool} : ∀ (l : List Nat) (c : Nat),
    c ∈ l → f c = false → (l.takeWhile f).length < l.length := by
  intro l
  induction l with
  | nil => intro c h _; simp at h
  | cons a t ih =>
    intro c hc hfc
    rw [List.takeWhile_cons]
    by_cases hf : f a = true
    · rw [if_pos hf]
      rcases List.mem_cons.mp hc with rfl | hc
    -- c = a contradicts f a = true vs f c = false
      · rw [hfc] at hf; exact absurd hf (by simp)
      · simpa using ih c hc hfc
    · rw [if_neg hf]
      simp

theorem rstrip_append (l : List Nat) :
    l = rstripSlash l ++ (l.reverse.takeWhile (fun c => c = 47)).reverse := by
  unfold rstripSlash
  conv_lhs => rw [← List.reverse_reverse l]
  conv_lhs =>
    rw [← List.takeWhile_append_dropWhile (p := fun c => c = 47) (l := l.reverse)]
  rw [List.reverse_append]

theorem rev_head (l : List Nat) (hne : l ≠ []) :
    ∃ ys, l.reverse = lastD l :: ys := by
  cases hrev : l.reverse with
  | nil =>
    exfalso
    have := congrArg List.length hrev
    simp at this
    exact hne this
  | cons y ys =>
    refine ⟨ys, ?_⟩
    simp [lastD, hrev]

theorem rstrip_shape (l : List Nat) :
    rstripSlash l = [] ∨ lastD (rstripSlash l) ≠ 47 := by
  unfold rstripSlash
  rcases dropWhile_shape (f := fun c => decide (c = 47)) l.reverse with hnil | ⟨c, t, heq, hfc⟩
  · left; rw [hnil]; rfl
  · right
    rw [heq]
    have : lastD (c :: t).reverse = c := by
      simp [lastD]
    rw [this]
    intro hcon
    rw [hcon] at hfc
    simp at hfc

theorem rstrip_id_of_last (l : List Nat) (h : l = [] ∨ lastD l ≠ 47) :
    rstripSlash l = l := by
  rcases h with rfl | h
  · rfl
  · by_cases hne : l = []
    · rw [hne]; rfl
    · obtain ⟨ys, hrev⟩ := rev_head l hne
      unfold rstripSlash
      rw [hrev, List.dropWhile_cons, if_neg (by simpa using h), ← hrev,
        List.reverse_reverse]

theorem rstrip_head (l t0 : List Nat) (hl : l = 47 :: t0) :
    rstripSlash l = [] ∨ ∃ t, rstripSlash l = 47 :: t := by
  have hsplit := rstrip_append l
  cases hr : rstripSlash l with
  | nil => left; rfl
  | cons c t =>
    right
    rw [hr] at hsplit
    rw [hl] at hsplit
    have : 47 = c := by
      have := congrArg (fun x => x.headD 0) hsplit
      simpa using this
    exact ⟨t, by rw [← this]⟩

theorem lastD_append (h p : List Nat) (hp : p ≠ []) : lastD (h ++ p) = lastD p := by
  obtain ⟨ys, hrev⟩ := rev_head p hp
  unfold lastD
  rw [List.reverse_append, hrev]
  rfl

theorem lastD_map (f : Nat → Nat) (l : List Nat) (hl : l ≠ []) :
    lastD (l.map f) = f (lastD l) := by
  obtain ⟨ys, hrev⟩ := rev_head l hl
  unfold lastD
  rw [← List.map_reverse, hrev]
  rfl

theorem lowerC_cases (c : Nat) : lowerC c = c ∨ (97 ≤ lowerC c ∧ lowerC c ≤ 122) := by
  unfold lowerC
  split
  · rename_i h; right; omega
  · left; rfl

theorem lowerC_idem (c : Nat) : lowerC (lowerC c) = lowerC c := by
  unfold lowerC
  split
  · rename_i h
    rw [if_neg (by omega)]
  · rfl

theorem lowerS_idem (l : List Nat) : lowerS (lowerS l) = lowerS l := by
  unfold lowerS
  rw [List.map_map]
  apply List.map_congr_left
  intro c _
  exact lowerC_idem c

theorem lowerS_ne_nil (l : List Nat) (h : l ≠ []) : lowerS l ≠ [] := by
  intro hcon
  have := congrArg List.length hcon
  simp [lowerS] at this
  exact h this

theorem schemeGo_subset : ∀ (l acc sch rest : List Nat),
    schemeGo acc l = some (sch, rest) → ∀ c ∈ rest, c ∈ l := by
  intro l
  induction l with
  | nil => intro acc sch rest h; simp [schemeGo] at h
  | cons a t ih =>
    intro acc sch rest h c hc
    rw [schemeGo] at h
    by_cases ha : a = 58
    · rw [if_pos ha] at h
      obtain ⟨-, rfl⟩ : sch = acc.reverse ∧ t = rest := by
        constructor <;> [skip; skip] <;> cases h <;> rfl
      exact List.mem_cons_of_mem _ hc
    · rw [if_neg ha] at h
      by_cases hsc : schCh a = true
      · rw [if_pos hsc] at h
        exact List.mem_cons_of_mem _ (ih (a :: acc) sch rest h c hc)
      · rw [if_neg hsc] at h
        simp at h

theorem schemeSplit_subset (u : List Nat) : ∀ c ∈ (schemeSplit u).2, c ∈ u := by
  intro c hc
  unfold schemeSplit at hc
  split at hc
  · simp at hc
  · rename_i a t
    split at hc
    · split at hc
      · rename_i sch rest hgo
        exact List.mem_cons_of_mem _ (schemeGo_subset t [a] sch rest hgo c hc)
      · exact hc
    · exact hc

theorem cleanUrl_tab (s : List Nat) : ∀ c ∈ cleanUrl s, tabCrLf c = false := by
  intro c hc
  unfold cleanUrl at hc
  have := (List.mem_filter.mp hc).2
  simpa using this

theorem append_ne_nil_left (l m : List Nat) (h : l ≠ []) : l ++ m ≠ [] := by
  cases l with
  | nil => exact absurd rfl h
  | cons c t => simp

theorem httpsPre_cons (X : List Nat) :
    httpsPre ++ X = 104 :: (pystr "ttps://" ++ X) := rfl

theorem pyStrip_https (h p : List Nat) (hne : h ≠ [])
    (hlast : wsb (lastD (h ++ p)) = false) :
    pyStrip (httpsPre ++ h ++ p) = httpsPre ++ h ++ p := by
  unfold pyStrip
  have hfwd : (httpsPre ++ h ++ p).dropWhile wsb = httpsPre ++ h ++ p := by
    rw [List.append_assoc, httpsPre_cons, List.dropWhile_cons, if_neg (by decide)]
  rw [hfwd]
  have hnep : h ++ p ≠ [] := append_ne_nil_left h p hne
  have hwhole : httpsPre ++ h ++ p ≠ [] := by
    rw [List.append_assoc]
    exact append_ne_nil_left _ _ (by decide)
  have hlast2 : lastD (httpsPre ++ h ++ p) = lastD (h ++ p) := by
    rw [List.append_assoc]
    exact lastD_append _ _ hnep
  obtain ⟨ys, hrev⟩ := rev_head _ hwhole
  rw [hrev, List.dropWhile_cons, if_neg (by rw [hlast2, hlast]; simp), ← hrev,
    List.reverse_reverse]

theorem cleanUrl_https (h p : List Nat)
    (hh : ∀ c ∈ h, tabCrLf c = false) (hp : ∀ c ∈ p, tabCrLf c = false) :
    cleanUrl (httpsPre ++ h ++ p) = httpsPre ++ h ++ p := by
  unfold cleanUrl
  have hdw : (httpsPre ++ h ++ p).dropWhile c0sp = httpsPre ++ h ++ p := by
    rw [List.append_assoc, httpsPre_cons, List.dropWhile_cons, if_neg (by decide)]
  rw [hdw, List.filter_append, List.filter_append]
  rw [show (httpsPre.filter fun c => !tabCrLf c) = httpsPre from by decide]
  rw [List.filter_eq_self.mpr (fun c hc => by simp [hh c hc]),
    List.filter_eq_self.mpr (fun c hc => by simp [hp c hc])]

theorem schemeSplit_https (X : List Nat) :
    schemeSplit (httpsPre ++ X) = (pystr "https", 47 :: 47 :: X) := rfl

theorem netPathOf_https (sch h p : List Nat)
    (hhostd : ∀ c ∈ h, notDelim c = true)
    (hshape : p = [] ∨ ∃ t, p = 47 :: t) :
    netPathOf sch (47 :: 47 :: (h ++ p)) =
      (sch, h, p.takeWhile (fun c => !(c == 35 || c == 63))) := by
  show (sch, (h ++ p).takeWhile notDelim,
      ((h ++ p).dropWhile notDelim).takeWhile (fun c => !(c == 35 || c == 63))) = _
  rw [takeWhile_append_all h p hhostd, dropWhile_append_all h p hhostd]
  rcases hshape with rfl | ⟨t, rfl⟩
  · simp
  · rw [List.takeWhile_cons, if_neg (by decide), List.dropWhile_cons,
      if_neg (by decide)]
    simp

theorem urlNetPath_https (h p : List Nat)
    (hhost : ∀ c ∈ h, notDelim c = true ∧ tabCrLf c = false)
    (hpath : ∀ c ∈ p, tabCrLf c = false)
    (hshape : p = [] ∨ ∃ t, p = 47 :: t) :
    urlNetPath (httpsPre ++ h ++ p) =
      (pystr "https", h, p.takeWhile (fun c => !(c == 35 || c == 63))) := by
  unfold urlNetPath
  rw [cleanUrl_https h p (fun c hc => (hhost c hc).2) hpath, List.append_assoc,
    schemeSplit_https]
  exact netPathOf_https (pystr "https") h p (fun c hc => (hhost c hc).1) hshape

theorem canonParts_https (h p : List Nat)
    (hne : h ≠ [])
    (hhost : ∀ c ∈ h, notDelim c = true ∧ tabCrLf c = false)
    (hpath : ∀ c ∈ p, tabCrLf c = false)
    (hshape : p = [] ∨ ∃ t, p = 47 :: t)
    (hlast : wsb (lastD (h ++ p)) = false) :
    canonParts (httpsPre ++ h ++ p) =
      some (hostNorm (lowerS h),
        lowerS (rstripSlash (urlparsePath (pystr "https")
          (p.takeWhile (fun c => !(c == 35 || c == 63)))))) := by
  have hwhole : httpsPre ++ h ++ p ≠ [] := by
    rw [List.append_assoc]
    exact append_ne_nil_left _ _ (by decide)
  unfold canonParts
  rw [if_neg hwhole, pyStrip_https h p hne hlast, urlNetPath_https h p hhost hpath hshape]
  rw [if_neg (show ¬((pystr "https", h,
      p.takeWhile (fun c => !(c == 35 || c == 63))).2.1 = []) from hne)]

theorem canonicalize_https (h p : List Nat)
    (hne : h ≠ [])
    (hhost : ∀ c ∈ h, notDelim c = true ∧ tabCrLf c = false)
    (hpath : ∀ c ∈ p, tabCrLf c = false)
    (hshape : p = [] ∨ ∃ t, p = 47 :: t)
    (hlast : wsb (lastD (h ++ p)) = false) :
    canonicalize_booking_url (httpsPre ++ h ++ p) =
      some (urlunparseHNP (hostNorm (lowerS h))
        (lowerS (rstripSlash (urlparsePath (pystr "https")
          (p.takeWhile (fun c => !(c == 35 || c == 63))))))) := by
  unfold canonicalize_booking_url
  rw [canonParts_https h p hne hhost hpath hshape hlast]
  rfl

theorem beqFalseOfNe {a b : Nat} (h : a ≠ b) : (a == b) = false := by
  simp [h]

theorem notDelim_of_range (x : Nat) (h97 : 97 ≤ x) (h122 : x ≤ 122) :
    notDelim x = true := by
  unfold notDelim
  rw [beqFalseOfNe (by omega), beqFalseOfNe (by omega),
    beqFalseOfNe (by omega)]
  rfl

theorem tabCrLf_of_range (x : Nat) (h97 : 97 ≤ x) : tabCrLf x = false := by
  unfold tabCrLf
  rw [beqFalseOfNe (by omega), beqFalseOfNe (by omega),
    beqFalseOfNe (by omega)]
  rfl

theorem lowerC_pred_preserve (c0 : Nat) (hd : notDelim c0 = true)
    (ht : tabCrLf c0 = false) :
    notDelim (lowerC c0) = true ∧ tabCrLf (lowerC c0) = false := by
  rcases lowerC_cases c0 with heq | ⟨hge, hle⟩
  · rw [heq]; exact ⟨hd, ht⟩
  · exact ⟨notDelim_of_range _ hge hle, tabCrLf_of_range _ hge⟩

theorem lowerC_tab_preserve (c0 : Nat) (ht : tabCrLf c0 = false) :
    tabCrLf (lowerC c0) = false := by
  rcases lowerC_cases c0 with heq | ⟨hge, _⟩
  · rw [heq]; exact ht
  · exact tabCrLf_of_range _ hge

theorem lowerC_path_preserve (c0 : Nat) (hg : (c0 == 35 || c0 == 63) = false) :
    ((lowerC c0 == 35) || (lowerC c0 == 63)) = false := by
  rcases lowerC_cases c0 with heq | ⟨hge, _⟩
  · rw [heq]; exact hg
  · rw [beqFalseOfNe (by omega), beqFalseOfNe (by omega)]
    rfl

theorem lowerC_ne47 (c0 : Nat) (h : c0 ≠ 47) : lowerC c0 ≠ 47 := by
  rcases lowerC_cases c0 with heq | ⟨hge, _⟩
  · rw [heq]; exact h
  · omega

theorem mem_lowerS (l : List Nat) (c : Nat) (hc : c ∈ lowerS l) :
    ∃ c0 ∈ l, c = lowerC c0 := by
  unfold lowerS at hc
  obtain ⟨c0, hc0, rfl⟩ := List.mem_map.mp hc
  exact ⟨c0, hc0, rfl⟩

theorem lastSegment_subset (p : List Nat) : ∀ c ∈ lastSegment p, c ∈ p := by
  intro c hc
  unfold lastSegment at hc
  rw [List.mem_reverse] at hc
  have := mem_takeWhile_orig _ _ hc
  rwa [List.mem_reverse] at this

theorem urlparsePath_subset (sch p0 : List Nat) :
    ∀ c ∈ urlparsePath sch p0, c ∈ p0 := by
  intro c hc
  unfold urlparsePath at hc
  split at hc
  · unfold splitparamsPath at hc
    split at hc
    · split at hc
      · rcases List.mem_append.mp hc with h1 | h1
        · exact List.take_subset _ _ h1
        · exact lastSegment_subset _ _ (mem_takeWhile_orig _ _ h1)
      · exact hc
    · exact mem_takeWhile_orig _ _ hc
  · exact hc

theorem urlparsePath_shape (sch p0 : List Nat)
    (hsh : p0 = [] ∨ ∃ t, p0 = 47 :: t) :
    urlparsePath sch p0 = [] ∨ ∃ t, urlparsePath sch p0 = 47 :: t := by
  unfold urlparsePath
  split
  · rcases hsh with rfl | ⟨t, rfl⟩
    · rename_i hcond
      exact absurd hcond.2 (by simp)
    · unfold splitparamsPath
      rw [if_pos (List.mem_cons_self 47 t)]
      split
      · right
        have hlseg : (lastSegment (47 :: t)).length < ((47:Nat) :: t).length := by
          unfold lastSegment
          rw [List.length_reverse]
          have := takeWhile_length_lt (f := fun c => decide (c ≠ 47))
            ((47:Nat) :: t).reverse 47 (by simp) (by simp)
          simpa using this
        obtain ⟨m, hm⟩ : ∃ m, ((47:Nat) :: t).length - (lastSegment (47 :: t)).length
            = m + 1 := ⟨((47:Nat) :: t).length - (lastSegment (47 :: t)).length - 1, by omega⟩
        rw [hm, List.take_succ_cons, List.cons_append]
        exact ⟨_, rfl⟩
      · right; exact ⟨t, rfl⟩
  · exact hsh

theorem urlparsePath_id_of_semiFree (p : List Nat)
    (hsh : p = [] ∨ ∃ t, p = 47 :: t)
    (hsf : semiFreeLastSeg p = true) :
    urlparsePath (pystr "https") p = p := by
  unfold urlparsePath
  split
  · rename_i hcond
    rcases hsh with rfl | ⟨t, rfl⟩
    · exact absurd hcond.2 (by simp)
    · unfold splitparamsPath
      rw [if_pos (List.mem_cons_self _ _)]
      rw [if_neg]
      intro hmem
      unfold semiFreeLastSeg at hsf
      simp only [Bool.not_eq_true', decide_eq_false_iff_not] at hsf
      apply hsf
      unfold lastSegment at hmem
      rwa [List.mem_reverse] at hmem
  · rfl

theorem rstrip_subset (l : List Nat) : ∀ c ∈ rstripSlash l, c ∈ l := by
  intro c hc
  have h2 : c ∈ rstripSlash l ++ (l.reverse.takeWhile (fun c => c = 47)).reverse :=
    List.mem_append.mpr (Or.inl hc)
  rwa [← rstrip_append l] at h2

theorem netPathOf_facts (sch rest : List Nat) :
    ((netPathOf sch rest).2.1 ≠ [] →
      ((netPathOf sch rest).2.2 = [] ∨ ∃ t, (netPathOf sch rest).2.2 = 47 :: t)) ∧
    (∀ c ∈ (netPathOf sch rest).2.1, notDelim c = true ∧ c ∈ rest) ∧
    (∀ c ∈ (netPathOf sch rest).2.2, ((c == 35) || (c == 63)) = false ∧ c ∈ rest) := by
  unfold netPathOf
  split
  · rename_i r2
    refine ⟨?_, ?_, ?_⟩
    · intro _
      rcases dropWhile_shape (f := notDelim) r2 with hdw | ⟨c, t, hdw, hfc⟩
      · left
        show (r2.dropWhile notDelim).takeWhile _ = []
        rw [hdw]
        rfl
      · show ((r2.dropWhile notDelim).takeWhile (fun c => !(c == 35 || c == 63)) = [])
          ∨ _
        rw [hdw]
        by_cases h47 : c = 47
        · subst h47
          right
          rw [List.takeWhile_cons, if_pos (by decide)]
          exact ⟨_, rfl⟩
        · left
          have hcd : c = 63 ∨ c = 35 := by
            have hfc2 := hfc
            simp [notDelim] at hfc2
            tauto
          rw [List.takeWhile_cons, if_neg]
          rcases hcd with rfl | rfl <;> decide
    · intro c hc
      have hc2 : c ∈ r2.takeWhile notDelim := hc
      refine ⟨List.mem_takeWhile_imp hc2, ?_⟩
      have := mem_takeWhile_orig _ _ hc2
      exact List.mem_cons_of_mem _ (List.mem_cons_of_mem _ this)
    · intro c hc
      have hc2 : c ∈ (r2.dropWhile notDelim).takeWhile
          (fun c => !(c == 35 || c == 63)) := hc
      constructor
      · have := List.mem_takeWhile_imp hc2
        simpa using this
      · have := mem_dropWhile_orig _ _ (mem_takeWhile_orig _ _ hc2)
        exact List.mem_cons_of_mem _ (List.mem_cons_of_mem _ this)
  · refine ⟨fun hcon => absurd rfl hcon,
      fun c hc => absurd (show c ∈ ([] : List Nat) from hc) (by simp), ?_⟩
    intro c hc
    have hc2 : c ∈ rest.takeWhile (fun c => !(c == 35 || c == 63)) := hc
    constructor
    · have := List.mem_takeWhile_imp hc2
      simpa using this
    · exact mem_takeWhile_orig _ _ hc2

theorem canonParts_inv (url h p : List Nat) (hcp : canonParts url = some (h, p)) :
    h ≠ [] ∧
    (∀ c ∈ h, notDelim c = true ∧ tabCrLf c = false) ∧
    (∀ c ∈ p, tabCrLf c = false) ∧
    (p = [] ∨ ∃ t, p = 47 :: t) ∧
    lowerS h = h ∧ hostNorm h = h ∧
    lowerS p = p ∧ rstripSlash p = p ∧
    (∀ c ∈ p, ((c == 35) || (c == 63)) = false) := by
  simp only [canonParts] at hcp
  split at hcp
  · exact absurd hcp (by simp)
  · split at hcp
    · exact absurd hcp (by simp)
    · rename_i hurl hnl
      obtain ⟨hh, hp⟩ : hostNorm (lowerS (urlNetPath (pyStrip url)).2.1) = h ∧
          lowerS (rstripSlash (urlparsePath (urlNetPath (pyStrip url)).1
            (urlNetPath (pyStrip url)).2.2)) = p := by
        have := Option.some.inj hcp
        exact ⟨congrArg Prod.fst this, congrArg Prod.snd this⟩
      set NL := (urlNetPath (pyStrip url)).2.1 with hNL
      set PP := (urlNetPath (pyStrip url)).2.2 with hPP
      set SCH := (urlNetPath (pyStrip url)).1 with hSCH
      have hfacts := netPathOf_facts (schemeSplit (cleanUrl (pyStrip url))).1
        (schemeSplit (cleanUrl (pyStrip url))).2
      have hNLfacts : ∀ c ∈ NL, notDelim c = true ∧ tabCrLf c = false := by
        intro c hc
        have h2 := hfacts.2.1 c hc
        refine ⟨h2.1, ?_⟩
        exact cleanUrl_tab _ c (schemeSplit_subset _ c h2.2)
      have hPPfacts : ∀ c ∈ PP, ((c == 35) || (c == 63)) = false ∧ tabCrLf c = false := by
        intro c hc
        have h2 := hfacts.2.2 c hc
        refine ⟨h2.1, ?_⟩
        exact cleanUrl_tab _ c (schemeSplit_subset _ c h2.2)
      have hPPshape : PP = [] ∨ ∃ t, PP = 47 :: t := hfacts.1 hnl
      -- facts about p
      have hUP := urlparsePath_shape SCH PP hPPshape
      have hUPsub := urlparsePath_subset SCH PP
      have hRshape : rstripSlash (urlparsePath SCH PP) = [] ∨
          ∃ t, rstripSlash (urlparsePath SCH PP) = 47 :: t := by
        rcases hUP with hnil | ⟨t, ht⟩
        · left; rw [hnil]; rfl
        · exact rstrip_head _ _ ht
      have hpshape : p = [] ∨ ∃ t, p = 47 :: t := by
        rcases hRshape with hnil | ⟨t, ht⟩
        · left; rw [← hp, hnil]; rfl
        · right
          refine ⟨lowerS t, ?_⟩
          rw [← hp, ht]
          rfl
      have hpmem : ∀ c ∈ p, ((c == 35) || (c == 63)) = false ∧ tabCrLf c = false := by
        intro c hc
        rw [← hp] at hc
        obtain ⟨c0, hc0, rfl⟩ := mem_lowerS _ c hc
        have hc1 := hUPsub c0 (rstrip_subset _ c0 hc0)
        have h2 := hPPfacts c0 hc1
        exact ⟨lowerC_path_preserve c0 h2.1, lowerC_tab_preserve c0 h2.2⟩
      have hlp : lowerS p = p := by rw [← hp, lowerS_idem]
      have hrsp : rstripSlash p = p := by
        apply rstrip_id_of_last
        rcases rstrip_shape (urlparsePath SCH PP) with hnil | hlast
        · left; rw [← hp, hnil]; rfl
        · by_cases hne2 : rstripSlash (urlparsePath SCH PP) = []
          · left; rw [← hp, hne2]; rfl
          · right
            rw [← hp]
            rw [show lowerS (rstripSlash (urlparsePath SCH PP)) =
                (rstripSlash (urlparsePath SCH PP)).map lowerC from rfl]
            rw [lastD_map _ _ hne2]
            exact lowerC_ne47 _ hlast
      -- facts about h
      by_cases hbk : endsWith bcom (lowerS NL) = true
      · have hhw : h = wbcom := by
          rw [← hh]
          unfold hostNorm
          rw [if_pos hbk]
        subst hhw
        refine ⟨by decide, by decide, fun c hc => (hpmem c hc).2, hpshape,
          by decide, by decide, hlp, hrsp, fun c hc => (hpmem c hc).1⟩
      · have hhl : h = lowerS NL := by
          rw [← hh]
          unfold hostNorm
          rw [if_neg hbk]
        refine ⟨?_, ?_, fun c hc => (hpmem c hc).2, hpshape, ?_, ?_, hlp, hrsp,
          fun c hc => (hpmem c hc).1⟩
        · rw [hhl]
          exact lowerS_ne_nil _ hnl
        · intro c hc
          rw [hhl] at hc
          obtain ⟨c0, hc0, rfl⟩ := mem_lowerS _ c hc
          have h2 := hNLfacts c0 hc0
          exact lowerC_pred_preserve c0 h2.1 h2.2
        · rw [hhl, lowerS_idem]
        · rw [hhl]
          unfold hostNorm
          rw [if_neg hbk]

/-! ## Claim C2: bound discovery and the doubled-backslash regex -/

theorem patMatchAt_shape (l g : List Nat) (h : patMatchAt l = some g) :
    ∃ ds, g = 92 :: ds ∧ ds ≠ [] ∧ ∀ c ∈ ds, c = 100 := by
  unfold patMatchAt at h
  split at h
  · split at h
    · split at h
      · exact absurd h (by simp)
      · rename_i r3unused hdw hx xs htw
        obtain rfl : 92 :: hdw.takeWhile (fun c => c = 100) = g := by simpa using h
        refine ⟨_, rfl, fun hc => htw hc, ?_⟩
        intro c hc
        simpa using List.mem_takeWhile_imp hc
    · exact absurd h (by simp)
  · exact absurd h (by simp)

theorem reSearchPat_shape (t g : List Nat) (h : reSearchPat t = some g) :
    ∃ ds, g = 92 :: ds ∧ ds ≠ [] ∧ ∀ c ∈ ds, c = 100 := by
  induction t with
  | nil => simp [reSearchPat] at h
  | cons c t ih =>
    rw [reSearchPat] at h
    cases hp : patMatchAt (c :: t) with
    | some g2 =>
      rw [hp] at h
      obtain rfl : g2 = g := by simpa using h
      exact patMatchAt_shape _ _ hp
    | none =>
      rw [hp] at h
      exact ih h

theorem pyIntParse_backslash (ds : List Nat) (hall : ∀ c ∈ ds, c = 100) :
    pyIntParse (92 :: ds) = none := by
  have hstrip : pyStrip (92 :: ds) = 92 :: ds := by
    apply stripId
    intro c hc
    rcases List.mem_cons.mp hc with rfl | hc
    · decide
    · rw [hall c hc]; decide
  have hd : digitsVal (92 :: ds) = none := by
    unfold digitsVal
    rw [if_neg]
    intro hcon
    have := hcon.2
    simp [List.all_cons] at this
  unfold pyIntParse
  rw [hstrip]
  simp [hd]

/-- C2: the claim says the harvesting bound equals the parsed counter total
(e.g. 7 for counter `"7 / 7"`), with the fallback 50 used only when the
counter is absent or unparsable.  In the code the regular expression is the
raw string `r"/\\s*(\\d+)"`, whose doubled backslashes match a literal
backslash character and capture `\\d+` (a backslash followed by letters
`d`), which `int()` can never parse; so the bound is 50 for *every* counter
text, in particular for the spec's scenario counter `"7 / 7"`. -/
theorem C2_counter_regex_bug :
    (∀ t, totalImages t = 50) ∧ totalImages (some (pystr "7 / 7")) ≠ 7 := by
  have hall : ∀ t, totalImages t = 50 := by
    intro t
    cases t with
    | none => rfl
    | some x =>
      have hx : totalImages (some x) =
          (match reSearchPat x with
           | none => 50
           | some g =>
             match pyIntParse g with
             | some n => n.toNat
             | none => 50) := rfl
      rw [hx]
      cases hs : reSearchPat x with
      | none => rfl
      | some g =>
        obtain ⟨ds, rfl, _, hds⟩ := reSearchPat_shape _ _ hs
        show (match pyIntParse (92 :: ds) with
              | some n => n.toNat
              | none => 50) = 50
        rw [pyIntParse_backslash ds hds]
  exact ⟨hall, by rw [hall]; omega⟩

/-! ## Claim C5: canonicalization equivalence classes -/

/-- C5: the three spec inputs `http://booking.com/hotel/x`,
`https://www.booking.com/hotel/x/` and `https://BOOKING.COM/Hotel/X`
(differing only by protocol, `www.`/bare-domain form, trailing slash and
path case) all canonicalize to the identical key
`https://www.booking.com/hotel/x`. -/
theorem C5_canonical_equivalence :
    canonicalize_booking_url (pystr "http://booking.com/hotel/x") =
      some (pystr "https://www.booking.com/hotel/x") ∧
    canonicalize_booking_url (pystr "https://www.booking.com/hotel/x/") =
      some (pystr "https://www.booking.com/hotel/x") ∧
    canonicalize_booking_url (pystr "https://BOOKING.COM/Hotel/X") =
      some (pystr "https://www.booking.com/hotel/x") := by
  exact ⟨by decide, by decide, by decide⟩

/-! ## Claim C1: a raise inside the harvest loop -/

theorem harvest_trunc (env : Nat → IterOutcome) :
    ∀ k j f seen urls, env (j + k) = IterOutcome.raise → k < f →
      harvestAux env j f seen urls = harvestAux env j k seen urls := by
  intro k
  induction k with
  | zero =>
    intro j f seen urls hr hf
    cases f with
    | zero => omega
    | succ f' =>
      simp only [Nat.add_zero] at hr
      simp only [harvestAux, hr]
  | succ k ih =>
    intro j f seen urls hr hf
    cases f with
    | zero => omega
    | succ f' =>
      simp only [harvestAux]
      cases henv : env j with
      | raise => rfl
      | okThenRaise o => rfl
      | ok o =>
        apply ih (j + 1)
        · have heq : j + 1 + k = j + (k + 1) := by omega
          rw [heq]; exact hr
        · omega

/-- C1 counterexample: with the environment `envC1` (iteration 0 reads
`"a"`, iteration 1 raises during extraction, iteration 2 would read a fresh
`"b"`), a bound of 3 yields only `["a"]`: the iterations after the raising
one are *not* attempted (the `try` wraps the whole loop), contradicting the
claim that `"b"` would still be collected. -/
theorem C1_counterexample :
    envC1 1 = IterOutcome.raise ∧
    envC1 2 = IterOutcome.ok (some (pystr "b")) ∧
    harvestRun envC1 3 = [pystr "a"] ∧
    pystr "b" ∉ harvestRun envC1 3 := by decide

/-- C1 amended: an extraction failure at some iteration is caught by the
single `try` *outside* the loop: all remaining iterations are abandoned,
but the URLs collected before the failure are kept — the run behaves
exactly as if the loop had been bounded at the raising iteration, and the
scrape then proceeds normally. -/
theorem C1_amended (env : Nat → IterOutcome) (total i : Nat)
    (hi : i < total) (hr : env i = IterOutcome.raise) :
    harvestRun env total = harvestRun env i := by
  unfold harvestRun
  exact harvest_trunc env i 0 total [] [] (by simpa using hr) hi

/-- C1 witness: the amended statement at the concrete environment. -/
theorem C1_witness :
    1 < 3 ∧ envC1 1 = IterOutcome.raise ∧
    harvestRun envC1 3 = harvestRun envC1 1 :=
  ⟨by decide, by decide, C1_amended envC1 3 1 (by decide) (by decide)⟩

/-! ## Claim C3: the harvest respects the bound -/

theorem addSrc_len (seen urls : List (List Nat)) (o : Option (List Nat)) :
    (addSrc seen urls o).2.length ≤ urls.length + 1 := by
  cases o with
  | none => simp [addSrc]
  | some s =>
    simp only [addSrc]
    split
    · simp
    · simp

theorem harvest_len (env : Nat → IterOutcome) :
    ∀ f i seen urls, (harvestAux env i f seen urls).length ≤ urls.length + f := by
  intro f
  induction f with
  | zero => intro i seen urls; simp [harvestAux]
  | succ f' ih =>
    intro i seen urls
    simp only [harvestAux]
    cases henv : env i with
    | raise => simp only []; omega
    | okThenRaise o =>
      have := addSrc_len seen urls o
      simp only []; omega
    | ok o =>
      have h1 := ih (i + 1) (addSrc seen urls o).1 (addSrc seen urls o).2
      have h2 := addSrc_len seen urls o
      simp only []; omega

/-- C3: whatever the page does at each iteration (duplicates, empty reads,
missing elements, raises), the final `image_urls` length never exceeds the
bound in effect — the one produced by the counter-discovery step
(`totalImages`, i.e. the discovered total or the fallback 50). -/
theorem C3_harvest_bound (env : Nat → IterOutcome) (counter : Option (List Nat)) :
    (harvestRun env (totalImages counter)).length ≤ totalImages counter := by
  have := harvest_len env (totalImages counter) 0 [] []
  simpa using this

/-! ## Claims C6 and C10: canonical-key idempotence and host collapsing -/

theorem urlunparse_id (h p : List Nat) (hsh : p = [] ∨ ∃ t, p = 47 :: t) :
    urlunparseHNP h p = httpsPre ++ h ++ p := by
  unfold urlunparseHNP
  rcases hsh with rfl | ⟨t, rfl⟩
  · rfl
  · show httpsPre ++ h ++ (if (47 : Nat) = 47 then 47 :: t else 47 :: 47 :: t) = _
    rw [if_pos rfl]

/-- C6 counterexample: from the input `foo://x/a;b` (a scheme for which
`urlparse` does not split `;params`) `canonicalize_booking_url` produces
the key `https://x/a;b`; re-applying the function to that key parses it
with scheme `https`, for which `urlparse` *does* split params, yielding
`https://x/a` ≠ the key.  So the produced key is not a fixed point. -/
theorem C6_counterexample :
    canonicalize_booking_url (pystr "foo://x/a;b") = some (pystr "https://x/a;b") ∧
    canonicalize_booking_url (pystr "https://x/a;b") = some (pystr "https://x/a") ∧
    some (pystr "https://x/a") ≠ some (pystr "https://x/a;b") := by
  exact ⟨by decide, by decide, by decide⟩

/-- C6 amended: re-applying `canonicalize_booking_url` to a key it produced
returns the key unchanged, provided the key's path has no `;` in its final
segment (automatic for http/https inputs, whose `;params` suffix `urlparse`
already splits off) and the key does not end in Python-strippable
whitespace (which `strip()` would remove on the second pass). -/
theorem C6_amended (url h p : List Nat)
    (hcp : canonParts url = some (h, p))
    (hsf : semiFreeLastSeg p = true)
    (hws : wsb (lastD (h ++ p)) = false) :
    canonicalize_booking_url url = some (urlunparseHNP h p) ∧
    canonicalize_booking_url (urlunparseHNP h p) = some (urlunparseHNP h p) := by
  obtain ⟨hne, hhost, hpath, hshape, hlh, hhn, hlp, hrs, hg⟩ :=
    canonParts_inv url h p hcp
  constructor
  · unfold canonicalize_booking_url
    rw [hcp]
    rfl
  · rw [urlunparse_id h p hshape,
      canonicalize_https h p hne hhost hpath hshape hws,
      takeWhile_all_eq p (fun c hc => by rw [hg c hc]; rfl),
      urlparsePath_id_of_semiFree p hshape hsf, hrs, hlp, hlh, hhn,
      urlunparse_id h p hshape]

/-- C6 witness: the amended statement at a concrete produced key. -/
theorem C6_witness :
    canonicalize_booking_url (urlunparseHNP wbcom (pystr "/hotel/x")) =
      some (urlunparseHNP wbcom (pystr "/hotel/x")) :=
  (C6_amended (pystr "http://Booking.com/Hotel/X/") wbcom (pystr "/hotel/x")
    (by decide) (by decide) (by decide)).2

/-- C10: `canonicalize_booking_url` rewrites to `www.booking.com` the host
of *every* URL whose lower-cased host merely ends with the character
sequence `booking.com` — including unrelated domains such as
`notbooking.com` or `evil-booking.com` — so such a URL's canonical key is
identical to that of a genuine `www.booking.com` URL with the same path. -/
theorem C10_host_suffix_collapse (h p : List Nat)
    (hne : h ≠ [])
    (hhost : ∀ c ∈ h, notDelim c = true ∧ tabCrLf c = false)
    (hpath : ∀ c ∈ p, tabCrLf c = false)
    (hshape : p = [] ∨ ∃ t, p = 47 :: t)
    (hlast : wsb (lastD (h ++ p)) = false)
    (hbook : endsWith bcom (lowerS h) = true) :
    canonicalize_booking_url (httpsPre ++ h ++ p) =
      canonicalize_booking_url (httpsPre ++ wbcom ++ p) := by
  have hlast2 : wsb (lastD (wbcom ++ p)) = false := by
    rcases hshape with rfl | ⟨t, rfl⟩
    · decide
    · rw [lastD_append _ _ (by simp)]
      rw [lastD_append _ _ (by simp)] at hlast
      exact hlast
  rw [canonicalize_https h p hne hhost hpath hshape hlast,
    canonicalize_https wbcom p (by decide) (by decide) hpath hshape hlast2]
  have h1 : hostNorm (lowerS h) = wbcom := by
    unfold hostNorm
    rw [if_pos hbook]
  have h2 : hostNorm (lowerS wbcom) = wbcom := by decide
  rw [h1, h2]

/-- C10 witness: `notbooking.com` and `evil-booking.com` collapse onto the
genuine `www.booking.com` key for the same hotel path. -/
theorem C10_witness :
    canonicalize_booking_url (httpsPre ++ pystr "notbooking.com" ++ pystr "/hotel/x") =
      canonicalize_booking_url (httpsPre ++ wbcom ++ pystr "/hotel/x") ∧
    canonicalize_booking_url (httpsPre ++ pystr "evil-booking.com" ++ pystr "/hotel/x") =
      canonicalize_booking_url (httpsPre ++ wbcom ++ pystr "/hotel/x") :=
  ⟨C10_host_suffix_collapse (pystr "notbooking.com") (pystr "/hotel/x")
      (by decide) (by decide) (by decide)
      (Or.inr ⟨pystr "hotel/x", by decide⟩) (by decide) (by decide),
   C10_host_suffix_collapse (pystr "evil-booking.com") (pystr "/hotel/x")
      (by decide) (by decide) (by decide)
      (Or.inr ⟨pystr "hotel/x", by decide⟩) (by decide) (by decide)⟩

/-! ## Claim C4: dedup and first-occurrence order -/

theorem FO_nil : firstOccurrences [] = [] := by rw [firstOccurrences]

theorem FO_cons (s : List Nat) (rest : List (List Nat)) :
    firstOccurrences (s :: rest) =
      s :: firstOccurrences (rest.filter (fun t => t ≠ s)) := by
  rw [firstOccurrences]

theorem filter_notmem_append_one (l urls : List (List Nat)) (s : List Nat) :
    l.filter (fun t => t ∉ urls ++ [s]) =
      (l.filter (fun t => t ∉ urls)).filter (fun t => t ≠ s) := by
  rw [List.filter_filter]
  apply List.filter_congr
  intro x _
  by_cases h1 : x ∈ urls <;> by_cases h2 : x = s <;>
    simp [h1, h2, List.mem_append]

theorem harvest_nodup (env : Nat → IterOutcome) :
    ∀ f i (seen urls : List (List Nat)),
      (∀ x, x ∈ seen ↔ x ∈ urls) → urls.Nodup →
      (harvestAux env i f seen urls).Nodup := by
  intro f
  induction f with
  | zero => intro i seen urls _ hnd; simpa [harvestAux] using hnd
  | succ f' ih =>
    intro i seen urls hsync hnd
    simp only [harvestAux]
    cases henv : env i with
    | raise => exact hnd
    | okThenRaise o =>
      cases o with
      | none => exact hnd
      | some s =>
        simp only [addSrc]
        split
        · rename_i hcond
          have hsm : s ∉ urls := fun hc => hcond.2 ((hsync s).mpr hc)
          simpa [List.nodup_append] using ⟨hnd, hsm⟩
        · exact hnd
    | ok o =>
      cases o with
      | none => exact ih (i+1) seen urls hsync hnd
      | some s =>
        simp only [addSrc]
        split
        · rename_i hcond
          have hsm : s ∉ urls := fun hc => hcond.2 ((hsync s).mpr hc)
          apply ih (i+1)
          · intro x
            simp only [List.mem_cons, List.mem_append, List.mem_singleton, hsync x]
            tauto
          · simpa [List.nodup_append] using ⟨hnd, hsm⟩
        · exact ih (i+1) seen urls hsync hnd

theorem harvest_spec (env : Nat → IterOutcome) :
    ∀ f i (seen urls : List (List Nat)),
      (∀ x, x ∈ seen ↔ x ∈ urls) →
      harvestAux env i f seen urls =
        urls ++ firstOccurrences ((readsFrom env i f).filter (fun t => t ∉ urls)) := by
  intro f
  induction f with
  | zero => intro i seen urls _; simp [harvestAux, readsFrom, FO_nil]
  | succ f' ih =>
    intro i seen urls hsync
    simp only [harvestAux, readsFrom]
    cases henv : env i with
    | raise => simp [FO_nil]
    | okThenRaise o =>
      cases o with
      | none => simp [addSrc, readOf, FO_nil]
      | some s =>
        by_cases hse : s = []
        · subst hse; simp [addSrc, readOf, FO_nil]
        · by_cases hmem : s ∈ urls
          · have hseen : s ∈ seen := (hsync s).mpr hmem
            have haddy : addSrc seen urls (some s) = (seen, urls) := by
              simp [addSrc, hseen]
            simp [haddy, readOf, hse, hmem, FO_nil, List.filter_cons]
          · have hseen : s ∉ seen := fun hc => hmem ((hsync s).mp hc)
            have haddy : addSrc seen urls (some s) = (s :: seen, urls ++ [s]) := by
              simp [addSrc, hse, hseen]
            simp [haddy, readOf, hse, hmem, FO_cons, FO_nil, List.filter_cons]
    | ok o =>
      cases o with
      | none =>
        have haddy : addSrc seen urls none = (seen, urls) := rfl
        simpa [haddy, readOf] using ih (i+1) seen urls hsync
      | some s =>
        by_cases hse : s = []
        · subst hse
          have haddy : addSrc seen urls (some []) = (seen, urls) := by simp [addSrc]
          simpa [haddy, readOf] using ih (i+1) seen urls hsync
        · by_cases hmem : s ∈ urls
          · have hseen : s ∈ seen := (hsync s).mpr hmem
            have haddy : addSrc seen urls (some s) = (seen, urls) := by
              simp [addSrc, hseen]
            have IH := ih (i+1) seen urls hsync
            simp [haddy, readOf, hse, hmem, List.filter_cons, IH]
          · have hseen : s ∉ seen := fun hc => hmem ((hsync s).mp hc)
            have haddy : addSrc seen urls (some s) = (s :: seen, urls ++ [s]) := by
              simp [addSrc, hse, hseen]
            have hsync2 : ∀ x, x ∈ s :: seen ↔ x ∈ urls ++ [s] := by
              intro x
              simp only [List.mem_cons, List.mem_append, List.mem_singleton, hsync x]
              tauto
            have IH := ih (i+1) (s :: seen) (urls ++ [s]) hsync2
            have hro : readOf (some s) = [s] := by simp [readOf, hse]
            show harvestAux env (i+1) f'
                (addSrc seen urls (some s)).1 (addSrc seen urls (some s)).2 =
              urls ++ firstOccurrences
                ((readOf (some s) ++ readsFrom env (i+1) f').filter (fun t => t ∉ urls))
            rw [haddy, hro]
            show harvestAux env (i+1) f' (s :: seen) (urls ++ [s]) =
              urls ++ firstOccurrences
                ((s :: readsFrom env (i+1) f').filter (fun t => t ∉ urls))
            rw [IH, filter_notmem_append_one]
            simp [List.filter_cons, hmem, FO_cons, List.append_assoc]


/-- C4: for every environment (any sequence of reads, including repeats,
empty reads, missing elements and mid-loop raises) the harvested
`image_urls` list has no two equal elements (exact string equality, no
normalization) and equals the first-occurrence subsequence of the read
sequence, in read order. -/
theorem C4_dedup_first_occurrence (env : Nat → IterOutcome) (total : Nat) :
    (harvestRun env total).Nodup ∧
    harvestRun env total = firstOccurrences (readsFrom env 0 total) := by
  constructor
  · exact harvest_nodup env total 0 [] [] (by simp) (by simp)
  · have h := harvest_spec env total 0 [] [] (by simp)
    unfold harvestRun
    rw [h, List.filter_eq_self.mpr (by simp)]
    rfl

/-- C9: on a fatal scrape failure (e.g. navigation throwing), `main` exits
with code 1 and still emits one structured document with `status "error"`,
empty `image_urls`, `booking_url` equal to the input URL, and
`booking_url_canon` the canonical key of the input URL (JSON `null` when
canonicalization is inapplicable); `hotel_name` is `null` and
`description` the sentinel — no other partial data. -/
theorem C9_fatal_error_document (prog url : List Nat) (rest : List (List Nat))
    (msg : List Nat) :
    (mainRun (prog :: url :: rest) (ScrapeOutcome.exn msg)).2 = 1 ∧
    dlookup JKey.status (mainRun (prog :: url :: rest) (ScrapeOutcome.exn msg)).1 =
      some (JVal.jstr (pystr "error")) ∧
    dlookup JKey.imageUrls (mainRun (prog :: url :: rest) (ScrapeOutcome.exn msg)).1 =
      some (JVal.jlist []) ∧
    dlookup JKey.bookingUrl (mainRun (prog :: url :: rest) (ScrapeOutcome.exn msg)).1 =
      some (JVal.jstr url) ∧
    dlookup JKey.bookingUrlCanon (mainRun (prog :: url :: rest) (ScrapeOutcome.exn msg)).1 =
      some (optVal (canonicalize_booking_url url)) ∧
    dlookup JKey.hotelName (mainRun (prog :: url :: rest) (ScrapeOutcome.exn msg)).1 =
      some JVal.jnull ∧
    dlookup JKey.description (mainRun (prog :: url :: rest) (ScrapeOutcome.exn msg)).1 =
      some (JVal.jstr noDescSentinel) := by
  have hlen : ¬ (prog :: url :: rest).length < 2 := by
    simp only [List.length_cons]
    omega
  unfold mainRun
  rw [if_neg hlen]
  exact ⟨rfl, rfl, rfl, rfl, rfl, rfl, rfl⟩

/-! ## Claim C7: language rewriting and Python replace -/

theorem lw_cons_iff (x y : Nat) (p s : List Nat) :
    leadsWith (x :: p) (y :: s) = true ↔ x = y ∧ leadsWith p s = true := by
  simp only [leadsWith]
  split
  · rename_i h; simp [h]
  · rename_i h; simp [h]

theorem lw_take (q : List Nat) : ∀ l, leadsWith q l = true → l.take q.length = q := by
  induction q with
  | nil => intro l _; rfl
  | cons x p ih =>
    intro l h
    cases l with
    | nil => exact absurd h (by simp [leadsWith])
    | cons y s =>
      obtain ⟨rfl, h2⟩ := (lw_cons_iff x y p s).mp h
      simp [List.take_cons, ih s h2]

theorem lw_length (q : List Nat) : ∀ l, leadsWith q l = true → q.length ≤ l.length := by
  induction q with
  | nil => intro l _; simp
  | cons x p ih =>
    intro l h
    cases l with
    | nil => exact absurd h (by simp [leadsWith])
    | cons y s =>
      obtain ⟨rfl, h2⟩ := (lw_cons_iff x y p s).mp h
      have := ih s h2
      simp only [List.length_cons]
      omega

theorem lw_refl_append (b x : List Nat) : leadsWith b (b ++ x) = true := by
  induction b with
  | nil => rfl
  | cons c t ih => exact (lw_cons_iff c c t (t ++ x)).mpr ⟨rfl, ih⟩

theorem lw_append_left (q : List Nat) :
    ∀ l x, leadsWith q (l ++ x) = true → q.length ≤ l.length →
      leadsWith q l = true := by
  induction q with
  | nil => intro l x _ _; rfl
  | cons a p ih =>
    intro l x h hlen
    cases l with
    | nil => simp at hlen
    | cons b t =>
      rw [List.cons_append] at h
      obtain ⟨rfl, h2⟩ := (lw_cons_iff a b p (t ++ x)).mp h
      refine (lw_cons_iff a a p t).mpr ⟨rfl, ih t x h2 ?_⟩
      simp only [List.length_cons] at hlen
      omega

theorem drop_shift (l : List Nat) : ∀ k, l.drop (k + 1) = (l.drop k).tail := by
  induction l with
  | nil => intro k; simp
  | cons c t ih =>
    intro k
    cases k with
    | zero => simp
    | succ k =>
      show t.drop (k + 1) = (t.drop k).tail
      exact ih k

theorem containsSeq_cons (pat : List Nat) (c : Nat) (t : List Nat) :
    containsSeq pat (c :: t) = (leadsWith pat (c :: t) || containsSeq pat t) := rfl

theorem contains_of_leadsWith (pat s : List Nat) (h : leadsWith pat s = true) :
    containsSeq pat s = true := by
  cases s with
  | nil =>
    cases pat with
    | nil => rfl
    | cons c t => exact absurd h (by simp [leadsWith])
  | cons c t => simp [containsSeq_cons, h]

theorem contains_of_contains_tail (pat : List Nat) (c : Nat) (t : List Nat)
    (h : containsSeq pat t = true) : containsSeq pat (c :: t) = true := by
  simp [containsSeq_cons, h]

theorem contains_cons_false (pat : List Nat) (c : Nat) (t : List Nat)
    (h : containsSeq pat (c :: t) = false) :
    leadsWith pat (c :: t) = false ∧ containsSeq pat t = false := by
  rw [containsSeq_cons] at h
  exact Bool.or_eq_false_iff.mp h

theorem contains_drop_mono (pat : List Nat) :
    ∀ m l, containsSeq pat (l.drop m) = true → containsSeq pat l = true := by
  intro m
  induction m with
  | zero => intro l h; simpa using h
  | succ m ih =>
    intro l h
    cases l with
    | nil => simpa using h
    | cons c t =>
      exact contains_of_contains_tail _ _ _ (ih t (by simpa [drop_shift] using h))

theorem contains_append_pat (pat : List Nat) :
    ∀ p, containsSeq pat (p ++ pat) = true := by
  intro p
  induction p with
  | nil =>
    rw [List.nil_append]
    exact contains_of_leadsWith _ _ (by simpa using lw_refl_append pat [])
  | cons c t ih =>
    rw [List.cons_append]
    exact contains_of_contains_tail _ _ _ ih

theorem endsWith_elim (pat s : List Nat) (h : endsWith pat s = true) :
    ∃ p, s = p ++ pat := by
  unfold endsWith at h
  have htake := lw_take _ _ h
  refine ⟨(s.reverse.drop pat.reverse.length).reverse, ?_⟩
  have hsplit : s.reverse.take pat.reverse.length ++ s.reverse.drop pat.reverse.length
      = s.reverse := List.take_append_drop _ _
  have := congrArg List.reverse hsplit
  rw [List.reverse_append, List.reverse_reverse, htake, List.reverse_reverse] at this
  exact this.symm

theorem contains_of_endsWith (pat s : List Nat) (h : endsWith pat s = true) :
    containsSeq pat s = true := by
  obtain ⟨p, rfl⟩ := endsWith_elim pat s h
  exact contains_append_pat pat p

theorem repGo_irrel (pat rep : List Nat) :
    ∀ f1 f2 s, s.length ≤ f1 → s.length ≤ f2 →
      repGo pat rep f1 s = repGo pat rep f2 s := by
  intro f1
  induction f1 with
  | zero =>
    intro f2 s h1 _
    cases s with
    | nil => cases f2 <;> rfl
    | cons c t => simp at h1
  | succ f1 ih =>
    intro f2 s h1 h2
    cases s with
    | nil => cases f2 <;> rfl
    | cons c t =>
      cases f2 with
      | zero => simp at h2
      | succ f2 =>
        simp only [repGo]
        simp only [List.length_cons] at h1 h2
        by_cases hl : leadsWith pat (c :: t) = true
        · rw [if_pos hl, if_pos hl]
          congr 1
          apply ih
          · have := List.length_drop (pat.length - 1) t
            omega
          · have := List.length_drop (pat.length - 1) t
            omega
        · rw [if_neg hl, if_neg hl]
          congr 1
          exact ih f2 t (by omega) (by omega)

theorem replaceAllGo_nil (pat rep : List Nat) : replaceAllGo pat rep [] = [] := rfl

theorem replaceAllGo_cons (pat rep : List Nat) (c : Nat) (t : List Nat) :
    replaceAllGo pat rep (c :: t) =
      if leadsWith pat (c :: t) = true then
        rep ++ replaceAllGo pat rep (t.drop (pat.length - 1))
      else c :: replaceAllGo pat rep t := by
  unfold replaceAllGo
  simp only [List.length_cons, repGo]
  by_cases hl : leadsWith pat (c :: t) = true
  · rw [if_pos hl, if_pos hl]
    congr 1
    apply repGo_irrel
    · have := List.length_drop (pat.length - 1) t
      omega
    · exact le_refl _
  · rw [if_neg hl, if_neg hl]

theorem replace_append_pat (b a : List Nat) (hb : b ≠ []) (X : List Nat) :
    replaceAllGo b a (b ++ X) = a ++ replaceAllGo b a X := by
  cases hbs : b with
  | nil => exact absurd hbs hb
  | cons b0 bs =>
    rw [List.cons_append, replaceAllGo_cons]
    have hpref : leadsWith (b0 :: bs) (b0 :: (bs ++ X)) = true := by
      rw [← List.cons_append]
      exact lw_refl_append _ _
    rw [if_pos hpref]
    congr 1
    have hlen : (b0 :: bs).length - 1 = bs.length := by simp
    rw [hlen, List.drop_left]

theorem tail_prefix_stable (a b : List Nat) (hnb : noBorder b) :
    ∀ n u, u.length ≤ n → containsSeq b u = false →
      ∀ k, 0 < k → k ≤ b.length →
        leadsWith (b.drop k) (replaceAllGo a b u) = true →
        leadsWith (b.drop k) u = true := by
  intro n
  induction n with
  | zero =>
    intro u hu _ k _ _ hlead
    cases u with
    | nil =>
      rw [replaceAllGo_nil] at hlead
      cases hbk : b.drop k with
      | nil => rfl
      | cons d r => rw [hbk] at hlead; exact absurd hlead (by simp [leadsWith])
    | cons c t => simp at hu
  | succ n ih =>
    intro u hu hc k hk0 hkb hlead
    cases u with
    | nil =>
      rw [replaceAllGo_nil] at hlead
      cases hbk : b.drop k with
      | nil => rfl
      | cons d r => rw [hbk] at hlead; exact absurd hlead (by simp [leadsWith])
    | cons c t =>
      simp only [List.length_cons] at hu
      by_cases hkeq : k = b.length
      · subst hkeq
        rw [List.drop_length]
        rfl
      · have hklt : k < b.length := lt_of_le_of_ne hkb hkeq
        rw [replaceAllGo_cons] at hlead
        by_cases hpa : leadsWith a (c :: t) = true
        · rw [if_pos hpa] at hlead
          exfalso
          have h1 : leadsWith (b.drop k) b = true := by
            apply lw_append_left _ _ _ hlead
            rw [List.length_drop]
            omega
          have h2 : b.take (b.drop k).length = b.drop k := lw_take _ _ h1
          rw [List.length_drop] at h2
          exact hnb k hklt hk0 h2.symm
        · rw [if_neg hpa] at hlead
          obtain ⟨d, r, hdr⟩ : ∃ d r, b.drop k = d :: r := by
            cases hbk : b.drop k with
            | nil =>
              exfalso
              have := congrArg List.length hbk
              rw [List.length_drop] at this
              simp at this
              omega
            | cons d r => exact ⟨d, r, rfl⟩
          have hr : b.drop (k + 1) = r := by
            rw [drop_shift, hdr]
            rfl
          rw [hdr] at hlead
          obtain ⟨rfl, hlead2⟩ := (lw_cons_iff _ _ _ _).mp hlead
          have hct : containsSeq b t = false := (contains_cons_false _ _ _ hc).2
          have hrec := ih t (by omega) hct (k + 1) (by omega) (by omega)
            (by rw [hr]; exact hlead2)
          rw [hdr]
          refine (lw_cons_iff _ _ _ _).mpr ⟨rfl, ?_⟩
          rw [hr] at hrec
          exact hrec

theorem replace_roundtrip_aux (a b : List Nat) (ha : a ≠ []) (hb : b ≠ [])
    (hnb : noBorder b) :
    ∀ n u, u.length ≤ n → containsSeq b u = false →
      replaceAllGo b a (replaceAllGo a b u) = u := by
  intro n
  induction n with
  | zero =>
    intro u hu _
    cases u with
    | nil => rfl
    | cons c t => simp at hu
  | succ n ih =>
    intro u hu hc
    cases u with
    | nil => rfl
    | cons c t =>
      simp only [List.length_cons] at hu
      rw [replaceAllGo_cons]
      by_cases hpa : leadsWith a (c :: t) = true
      · rw [if_pos hpa]
        rw [replace_append_pat b a hb]
        have htake := lw_take _ _ hpa
        have hdropeq : (c :: t).drop a.length = t.drop (a.length - 1) := by
          cases has : a with
          | nil => exact absurd has ha
          | cons a0 asx => simp
        have hct : containsSeq b (t.drop (a.length - 1)) = false := by
          cases hcd : containsSeq b (t.drop (a.length - 1)) with
          | false => rfl
          | true =>
            exfalso
            have := contains_drop_mono b (a.length - 1) t hcd
            have := contains_of_contains_tail b c t this
            rw [hc] at this
            exact absurd this (by simp)
        have hlen : (t.drop (a.length - 1)).length ≤ n := by
          have := List.length_drop (a.length - 1) t
          omega
        rw [ih _ hlen hct]
        conv_rhs => rw [← List.take_append_drop a.length (c :: t)]
        rw [htake, hdropeq]
      · rw [if_neg hpa]
        have hlb : ¬ leadsWith b (c :: replaceAllGo a b t) = true := by
          intro hlbtrue
          obtain ⟨b0, bs, rfl⟩ : ∃ b0 bs, b = b0 :: bs := by
            cases b with
            | nil => exact absurd rfl hb
            | cons b0 bs => exact ⟨b0, bs, rfl⟩
          obtain ⟨hb0c, hlb2⟩ := (lw_cons_iff _ _ _ _).mp hlbtrue
          have hct : containsSeq (b0 :: bs) t = false := (contains_cons_false _ _ _ hc).2
          have hrec := tail_prefix_stable a (b0 :: bs) hnb t.length t (le_refl _) hct 1
            (by omega) (by simp)
            (show leadsWith ((b0 :: bs).drop 1) (replaceAllGo a (b0 :: bs) t) = true
              from hlb2)
          have hlw : leadsWith (b0 :: bs) (c :: t) = true :=
            (lw_cons_iff _ _ _ _).mpr ⟨hb0c, hrec⟩
          have hcontr := contains_of_leadsWith (b0 :: bs) (c :: t) hlw
          rw [hc] at hcontr
          exact absurd hcontr (by simp)
        rw [replaceAllGo_cons, if_neg hlb]
        have hct : containsSeq b t = false := (contains_cons_false _ _ _ hc).2
        rw [ih t (by omega) hct]

theorem contains_b_replace (a b : List Nat) (ha : a ≠ []) :
    ∀ u, containsSeq a u = true → containsSeq b (replaceAllGo a b u) = true := by
  intro u
  induction u with
  | nil =>
    intro h
    exfalso
    cases a with
    | nil => exact ha rfl
    | cons a0 asx => exact absurd h (by simp [containsSeq, leadsWith])
  | cons c t ihu =>
    intro h
    rw [replaceAllGo_cons]
    by_cases hpa : leadsWith a (c :: t) = true
    · rw [if_pos hpa]
      exact contains_of_leadsWith _ _ (lw_refl_append b _)
    · rw [if_neg hpa]
      have ht : containsSeq a t = true := by
        rw [containsSeq_cons] at h
        simp only [Bool.or_eq_true] at h
        exact h.resolve_left hpa
      exact contains_of_contains_tail _ _ _ (ihu ht)

/-- C7 counterexample: the URL `https://x/a.el-gr.html.en-gb.html` ends in
the English suffix, yet the el-then-en round trip yields
`https://x/a.en-gb.html.en-gb.html` ≠ the original, because Python
`str.replace` replaces *all* occurrences and the second call also rewrites
the pre-existing `.el-gr.html` fragment. -/
theorem C7_counterexample :
    endsWith engb (pystr "https://x/a.el-gr.html.en-gb.html") = true ∧
    update_url_language
        (update_url_language (pystr "https://x/a.el-gr.html.en-gb.html") (pystr "el"))
        (pystr "en") =
      pystr "https://x/a.en-gb.html.en-gb.html" ∧
    pystr "https://x/a.en-gb.html.en-gb.html" ≠
      pystr "https://x/a.el-gr.html.en-gb.html" := by decide

/-- C7 amended: the el-then-en round trip restores the original URL for
every URL that ends in `.en-gb.html` and contains no occurrence of
`.el-gr.html` (every real Booking.com English URL); and the function
returns its argument unchanged when neither suffix occurs, when English is
requested and no Greek suffix is present, and when Greek is requested and
no English suffix is present. -/
theorem C7_amended :
    (∀ url, endsWith engb url = true → containsSeq elgr url = false →
      update_url_language (update_url_language url (pystr "el")) (pystr "en") = url) ∧
    (∀ url lang, containsSeq engb url = false → containsSeq elgr url = false →
      update_url_language url lang = url) ∧
    (∀ url, containsSeq elgr url = false →
      update_url_language url (pystr "en") = url) ∧
    (∀ url, containsSeq engb url = false →
      update_url_language url (pystr "el") = url) := by
  have hlangel : lowerS (if pystr "el" = ([] : List Nat) then pystr "en" else pystr "el") =
      pystr "el" := by decide
  have hlangen : lowerS (if pystr "en" = ([] : List Nat) then pystr "en" else pystr "en") =
      pystr "en" := by decide
  refine ⟨?_, ?_, ?_, ?_⟩
  · intro url hend hfree
    have hcontains : containsSeq engb url = true := contains_of_endsWith _ _ hend
    have step1 : update_url_language url (pystr "el") = replaceAllGo engb elgr url := by
      unfold update_url_language
      rw [hlangel, if_pos ⟨hcontains, rfl⟩]
      unfold pyReplace
      rw [if_neg (by decide)]
    have hcont2 : containsSeq elgr (replaceAllGo engb elgr url) = true :=
      contains_b_replace engb elgr (by decide) url hcontains
    rw [step1]
    have step2 : update_url_language (replaceAllGo engb elgr url) (pystr "en") =
        replaceAllGo elgr engb (replaceAllGo engb elgr url) := by
      unfold update_url_language
      rw [hlangen]
      rw [if_neg (fun hcon => absurd hcon.2 (by decide))]
      rw [if_pos ⟨hcont2, rfl⟩]
      unfold pyReplace
      rw [if_neg (by decide)]
    rw [step2]
    exact replace_roundtrip_aux engb elgr (by decide) (by decide) (by decide)
      url.length url (le_refl _) hfree
  · intro url lang h1 h2
    unfold update_url_language
    rw [if_neg (fun hcon => by rw [h1] at hcon; exact absurd hcon.1 (by simp))]
    rw [if_neg (fun hcon => by rw [h2] at hcon; exact absurd hcon.1 (by simp))]
  · intro url h
    unfold update_url_language
    rw [hlangen]
    rw [if_neg (fun hcon => absurd hcon.2 (by decide))]
    rw [if_neg (fun hcon => by rw [h] at hcon; exact absurd hcon.1 (by simp))]
  · intro url h
    unfold update_url_language
    rw [hlangel]
    rw [if_neg (fun hcon => by rw [h] at hcon; exact absurd hcon.1 (by simp))]
    rw [if_neg (fun hcon => absurd hcon.2 (by decide))]

/-- C7 witness: the amended round trip at a concrete English hotel URL. -/
theorem C7_witness :
    update_url_language
        (update_url_language
          (pystr "https://www.booking.com/hotel/gr/athens-center.en-gb.html")
          (pystr "el"))
        (pystr "en") =
      pystr "https://www.booking.com/hotel/gr/athens-center.en-gb.html" :=
  C7_amended.1 _ (by decide) (by decide)

/-! ## Claim C8: required keys of the result documents -/

theorem isStrOrNull_optVal (o : Option (List Nat)) :
    isStrOrNull (some (optVal o)) = true := by
  cases o <;> rfl

theorem hasKey_append_one (d : Doc) (k1 k2 : JKey) (v : JVal) :
    hasKey (d ++ [(k1, v)]) k2 = (hasKey d k2 || decide (k1 = k2)) := by
  induction d with
  | nil => by_cases h : k1 = k2 <;> simp [hasKey, dlookup, h]
  | cons p t ih =>
    obtain ⟨k3, w⟩ := p
    by_cases h : k3 = k2
    · simp [hasKey, dlookup, h]
    · simp only [List.cons_append, hasKey, dlookup, if_neg h] at *
      exact ih

theorem hasKey_addIf (d : Doc) (c : Prop) [Decidable c] (k k2 : JKey) (v : JVal)
    (hne : k ≠ k2) :
    hasKey (if c then d else d ++ [(k, v)]) k2 = hasKey d k2 := by
  split
  · rfl
  · simp [hasKey_append_one, hne]

/-- C8 counterexample: on the `CalledProcessError` path of
`get_booking_com_data` (the path a fatal load failure takes, since the
scraper exits non-zero and `subprocess.run(..., check=True)` raises), the
document the tool returns has no `hotel_name` and no `booking_url_canon`
key, so it fails the required-keys shape the claim asserts for every
terminal outcome. -/
theorem C8_counterexample :
    hasKey (toolFallbackDoc
        (pystr "Playwright scraper failed: ")
        (pystr "https://www.booking.com/hotel/gr/doesnotexist.html"))
      JKey.hotelName = false ∧
    hasKey (toolFallbackDoc
        (pystr "Playwright scraper failed: ")
        (pystr "https://www.booking.com/hotel/gr/doesnotexist.html"))
      JKey.bookingUrlCanon = false ∧
    requiredKeysOk (toolFallbackDoc
        (pystr "Playwright scraper failed: ")
        (pystr "https://www.booking.com/hotel/gr/doesnotexist.html")) = false := by
  decide

/-- C8 amended: the document the *scraper process* emits contains all six
required keys with type-correct values on every terminal outcome (missing
argument, fatal exception, degraded or fully successful run); the wrapper
tool's own fallback documents (script missing, subprocess failure, timeout,
unparsable output) carry only `status`, `message`, `description`,
`image_urls` and `booking_url` — `hotel_name` and `booking_url_canon` are
absent there, and the tool's ensure-keys block never adds them. -/
theorem C8_amended :
    (∀ argv run, requiredKeysOk (mainRun argv run).1 = true) ∧
    (∀ msg url,
      hasKey (toolFallbackDoc msg url) JKey.hotelName = false ∧
      hasKey (toolFallbackDoc msg url) JKey.bookingUrlCanon = false ∧
      hasKey (toolFallbackDoc msg url) JKey.status = true ∧
      hasKey (toolFallbackDoc msg url) JKey.message = true ∧
      hasKey (toolFallbackDoc msg url) JKey.description = true ∧
      hasKey (toolFallbackDoc msg url) JKey.imageUrls = true ∧
      hasKey (toolFallbackDoc msg url) JKey.bookingUrl = true) ∧
    (∀ d url,
      hasKey (ensureRequiredKeys d url) JKey.hotelName = hasKey d JKey.hotelName ∧
      hasKey (ensureRequiredKeys d url) JKey.bookingUrlCanon =
        hasKey d JKey.bookingUrlCanon) := by
  refine ⟨?_, ?_, ?_⟩
  · intro argv run
    by_cases hl : argv.length < 2
    · simp only [mainRun, if_pos hl]
      decide
    · cases run with
      | exn msg =>
        simp only [mainRun, if_neg hl]
        show requiredKeysOk (scrapeErrorDoc (argv.getD 1 []) _) = true
        unfold requiredKeysOk scrapeErrorDoc
        cases h : canonicalize_booking_url (argv.getD 1 []) <;>
          simp [dlookup, isStrVal, isStrOrNull, isListVal, optVal]
      | ok n d us fu =>
        simp only [mainRun, if_neg hl]
        show requiredKeysOk (successDoc n d us fu) = true
        unfold requiredKeysOk successDoc
        cases h : canonicalize_booking_url fu <;>
          simp [dlookup, isStrVal, isStrOrNull, isListVal, optVal]
  · intro msg url
    refine ⟨rfl, rfl, rfl, rfl, rfl, rfl, rfl⟩
  · intro d url
    simp only [ensureRequiredKeys]
    constructor
    · rw [hasKey_addIf _ _ _ _ _ (by decide),
          hasKey_addIf _ _ _ _ _ (by decide),
          hasKey_addIf _ _ _ _ _ (by decide)]
    · rw [hasKey_addIf _ _ _ _ _ (by decide),
          hasKey_addIf _ _ _ _ _ (by decide),
          hasKey_addIf _ _ _ _ _ (by decide)]
